import Mathlib

/-!
# Verification of the pi-extensions subagent orchestration core

Shallow embedding of `src/extensions/subagent.ts` (the parallel-capable
extension, plus the older single-mode document appended in the same file).
JavaScript numbers are modelled as exact rationals (`ℚ`) for token and cost
fields; counters are `ℕ`; process exit codes are `ℤ`.  Strings that flow
through the chunked stdout stream are modelled as `List Char`; strings that
only live inside parsed messages are Lean `String`s.
-/

namespace Subagent

/-- `UsageStats` from subagent.ts lines 21-28: the mutable per-run usage
accumulator.  The fields are JS numbers (IEEE-754 binary64), modelled here as
exact rationals; binary64 addition is exact on the integral token and turn
counts that occur, but not on `cost`, whose per-addition rounding is modelled
separately by `roundToDouble`, `doubleAdd` and `aggregateCostDouble`. -/
structure UsageStats where
  input : ℚ
  output : ℚ
  cacheRead : ℚ
  cacheWrite : ℚ
  cost : ℚ
  turns : ℕ
deriving DecidableEq, Repr

/-- The zero accumulator `{ input: 0, output: 0, cacheRead: 0, cacheWrite: 0,
cost: 0, turns: 0 }` used at result creation (lines 300, 510) and at the top
of `aggregateUsage` (line 635). -/
def UsageStats.zero : UsageStats := ⟨0, 0, 0, 0, 0, 0⟩

/-- Message roles.  The code only ever tests `msg.role === "assistant"`; all
other roles (user, toolResult, ...) behave identically and are collapsed into
`other`. -/
inductive Role where
  | assistant : Role
  | other : Role
deriving DecidableEq, Repr

/-- A content part of a message.  The code tests `part.type === "text"`; every
non-text part (toolCall, thinking, ...) is collapsed into `other`. -/
inductive ContentPart where
  | text (t : String) : ContentPart
  | other : ContentPart
deriving DecidableEq, Repr

/-- The `usage` object optionally attached to a streamed message: fields
`input`, `output`, `cacheRead`, `cacheWrite` and `cost.total`, each possibly
absent.  `costTotal` models the chain `usage.cost?.total`. -/
structure MsgUsage where
  input : Option ℚ
  output : Option ℚ
  cacheRead : Option ℚ
  cacheWrite : Option ℚ
  costTotal : Option ℚ
deriving DecidableEq, Repr

/-- A parsed message carried by a `message_end` / `tool_result_end` event. -/
structure Msg where
  role : Role
  content : List ContentPart
  usage : Option MsgUsage
  stopReason : Option String
  errorMessage : Option String
deriving DecidableEq, Repr

/-- The live/final state of one task execution, `SubagentResult` from
subagent.ts lines 30-40 (rendering-only fields omitted: `model`, `task`,
`context` are carried but never read by the logic under verification). -/
structure SubagentResult where
  model : String
  task : String
  context : Option String
  exitCode : ℤ
  output : String
  messages : List Msg
  usage : UsageStats
  stopReason : Option String
  errorMessage : Option String
deriving DecidableEq, Repr

/-! ## Result aggregation (renderResult, lines 634-645) -/

/-- `aggregateUsage` from subagent.ts lines 634-645: field-wise sum of every
UsageStats of every result, starting from the zero accumulator, in array order. -/
def aggregateUsage (results : List SubagentResult) : UsageStats :=
  results.foldl
    (fun total r =>
      { input := total.input + r.usage.input
        output := total.output + r.usage.output
        cacheRead := total.cacheRead + r.usage.cacheRead
        cacheWrite := total.cacheWrite + r.usage.cacheWrite
        cost := total.cost + r.usage.cost
        turns := total.turns + r.usage.turns })
    UsageStats.zero

/-- Field-wise addition of two usage accumulators (the monoid operation that
`aggregateUsage` folds with). -/
def UsageStats.add (a b : UsageStats) : UsageStats :=
  { input := a.input + b.input
    output := a.output + b.output
    cacheRead := a.cacheRead + b.cacheRead
    cacheWrite := a.cacheWrite + b.cacheWrite
    cost := a.cost + b.cost
    turns := a.turns + b.turns }


/-! ## Stream event processing (runSubagent, subagent.ts lines 270-398) -/

/-- The inner loop of `getFinalOutput` (lines 86-89): the first `text` part of
a content list, if any. -/
def firstText : List ContentPart → Option String
  | [] => none
  | .text t :: _ => some t
  | .other :: rest => firstText rest

/-- `getFinalOutput` scanning the message list back to front (lines 83-90):
first assistant message, scanned from the end, that has a text part. -/
def getFinalOutputRev : List Msg → String
  | [] => ""
  | m :: rest =>
    if m.role = Role.assistant then
      match firstText m.content with
      | some t => t
      | none => getFinalOutputRev rest
    else getFinalOutputRev rest

/-- `getFinalOutput` from subagent.ts lines 82-92. -/
def getFinalOutput (messages : List Msg) : String :=
  getFinalOutputRev messages.reverse

/-- JS truthiness of an optional string field (`undefined` and `""` are
falsy). -/
def strTruthy : Option String → Bool
  | none => false
  | some s => s != ""

/-- A parsed stream event.  `JSON.parse` plus the `event.type` /
`event.message` probing of lines 326 and 348 produce: a `message_end` event
carrying a message, a `tool_result_end` event carrying a message, or anything
else (unrecognized type, missing message), which changes nothing. -/
inductive StreamEvent where
  | messageEnd (m : Msg) : StreamEvent
  | toolResultEnd (m : Msg) : StreamEvent
  | otherEvent : StreamEvent
deriving DecidableEq, Repr

/-- The state updates of `processLine` for one recognized event (subagent.ts
lines 326-351): on `message_end`, push the message; if its role is assistant,
increment the turns counter, recompute the output from the transcript, add the
reported usage deltas (each `|| 0`), and capture truthy `stopReason` /
`errorMessage`.  On `tool_result_end`, only push the message. -/
def applyEvent (r : SubagentResult) (e : StreamEvent) : SubagentResult :=
  match e with
  | .messageEnd m =>
    let r1 := { r with messages := r.messages ++ [m] }
    if m.role = Role.assistant then
      let r2 := { r1 with usage := { r1.usage with turns := r1.usage.turns + 1 } }
      let r3 := { r2 with output := getFinalOutput r2.messages }
      let r4 :=
        match m.usage with
        | some u =>
          { r3 with usage := { r3.usage with
              input := r3.usage.input + u.input.getD 0
              output := r3.usage.output + u.output.getD 0
              cacheRead := r3.usage.cacheRead + u.cacheRead.getD 0
              cacheWrite := r3.usage.cacheWrite + u.cacheWrite.getD 0
              cost := r3.usage.cost + u.costTotal.getD 0 } }
        | none => r3
      let r5 := if strTruthy m.stopReason then { r4 with stopReason := m.stopReason }
                else r4
      if strTruthy m.errorMessage then { r5 with errorMessage := m.errorMessage }
      else r5
    else r1
  | .toolResultEnd m => { r with messages := r.messages ++ [m] }
  | .otherEvent => r

/-- The whitespace characters relevant to JS `String.prototype.trim` for this
protocol (ASCII whitespace). -/
def isJsWs (c : Char) : Bool :=
  c == ' ' || c == '\n' || c == '\t' || c == '\r'

/-- JS `line.trim()` is non-empty iff some character is not whitespace; this
is the guard of `if (!line.trim()) return` (line 318) and
`if (buffer.trim())` (line 366). -/
def trimNonempty (line : List Char) : Bool :=
  line.any fun c => !(isJsWs c)

/-- `processLine` (lines 317-352).  The JSON front end is abstracted as
`parse`: `none` models a line that fails `JSON.parse` and is silently
discarded. -/
def processLine (parse : List Char → Option StreamEvent)
    (r : SubagentResult) (line : List Char) : SubagentResult :=
  if !(trimNonempty line) then r
  else
    match parse line with
    | none => r
    | some e => applyEvent r e

/-- JS `buffer.split("\n")` (line 356) on a character list: the
newline-separated segments, in order; always non-empty. -/
def splitNl : List Char → List (List Char)
  | [] => [[]]
  | c :: rest =>
    match splitNl rest with
    | [] => [[]]
    | l :: ls => if c = '\n' then [] :: l :: ls else (c :: l) :: ls

/-- Gluing two newline-split results across a concatenation boundary: the
last (incomplete) segment of the left part merges with the first segment of
the right part.  Combinator used to reason about `splitNl` on appends. -/
def glueSegs : List (List Char) → List (List Char) → List (List Char)
  | [], ys => ys
  | [x], [] => [x]
  | [x], y :: ys => (x ++ y) :: ys
  | x :: x2 :: xs, ys => x :: glueSegs (x2 :: xs) ys

/-- The mutable state of the stdout handler: the partial-line buffer plus the
live result. -/
structure StreamState where
  buffer : List Char
  result : SubagentResult
deriving DecidableEq, Repr

/-- The stdout `data` handler (lines 354-359) on the JS string that
`data.toString()` produced for the chunk: append it to the buffer, split on
newlines, keep the last (possibly incomplete) segment as the new buffer
(`buffer = lines.pop() || ""`), and run `processLine` on every complete line
in order.  The byte-level handler, including the per-chunk UTF-8 decode of
line 355, is `feedChunkBytes` below. -/
def feedChunk (parse : List Char → Option StreamEvent)
    (st : StreamState) (chunk : List Char) : StreamState :=
  let parts := splitNl (st.buffer ++ chunk)
  { buffer := parts.getLastD []
    result := parts.dropLast.foldl (processLine parse) st.result }

/-- Folding the `data` handler over a whole sequence of observed chunks. -/
def feedAll (parse : List Char → Option StreamEvent)
    (st : StreamState) (chunks : List (List Char)) : StreamState :=
  chunks.foldl (feedChunk parse) st

/-- The `Exit code N` fallback text of line 368; `code` is `number | null` in
JS and `null` renders as the string "null". -/
def exitCodeMsg (code : Option ℤ) : String :=
  "Exit code " ++ (match code with | some n => toString n | none => "null")

/-- The `close` handler (lines 365-371): process any non-blank residual buffer
as a final line, then on non-zero (or null) exit code fall back to trimmed
stderr, or a generic message, when no error message was set. -/
def onCloseResult (parse : List Char → Option StreamEvent) (st : StreamState)
    (code : Option ℤ) (stderr : String) : SubagentResult :=
  let r := if trimNonempty st.buffer then processLine parse st.result st.buffer
           else st.result
  let fallback := if stderr.trim ≠ "" then stderr.trim else exitCodeMsg code
  if code ≠ some 0 ∧ strTruthy r.errorMessage = false then
    { r with errorMessage := some fallback }
  else r

/-- The initial result of the runner (lines 293-301).  Note that `exitCode` starts
at 0, not at the -1 running sentinel used by the parallel-mode slots. -/
def runnerInit (model task : String) (context : Option String) : SubagentResult :=
  { model := model, task := task, context := context, exitCode := 0, output := ""
    messages := [], usage := UsageStats.zero, stopReason := none
    errorMessage := none }

/-- Lines 391-395: store the resolved exit code (`code ?? 0`), then normalize
an aborted run to `stopReason = "aborted"` / `errorMessage = "Aborted by
user"`. -/
def finishRun (r : SubagentResult) (code : Option ℤ) (wasAborted : Bool) :
    SubagentResult :=
  let r1 := { r with exitCode := code.getD 0 }
  if wasAborted then
    { r1 with stopReason := some "aborted", errorMessage := some "Aborted by user" }
  else r1

/-- One complete Process Runner execution as a function of what was observed:
the stdout chunk sequence, the exit code reported by `close`, the buffered
stderr, and whether the cancellation signal fired (`wasAborted` is set by the
`kill` closure of lines 378-388, both when the signal is already active at
launch and when it becomes active during execution). -/
def runSubagentModel (parse : List Char → Option StreamEvent)
    (model task : String) (context : Option String) (chunks : List (List Char))
    (code : Option ℤ) (stderr : String) (wasAborted : Bool) : SubagentResult :=
  finishRun
    (onCloseResult parse (feedAll parse ⟨[], runnerInit model task context⟩ chunks)
      code stderr)
    code wasAborted

/-! ## Tool-result error flags (execute, lines 544-588 and 1182-1189) -/

/-- Single-mode error predicate (line 582; the appended single-mode document
uses the identical expression at line 1182): `exitCode !== 0 || stopReason ===
"error" || stopReason === "aborted"`. -/
def singleIsError (r : SubagentResult) : Bool :=
  r.exitCode != 0 || r.stopReason == some "error" || r.stopReason == some "aborted"

/-- `successCount` (line 544): tasks whose exit code is 0. -/
def successCount (rs : List SubagentResult) : ℕ :=
  (rs.filter fun r => r.exitCode == 0).length

/-- Parallel-mode error flag (line 553): `isError: successCount <
allResults.length`. -/
def parallelIsError (rs : List SubagentResult) : Bool :=
  decide (successCount rs < rs.length)

/-- `done` count of the parallel progress reporter (line 515): results whose
`exitCode` differs from the -1 running sentinel. -/
def doneCount (rs : List SubagentResult) : ℕ :=
  (rs.filter fun r => r.exitCode != -1).length

/-- The parallel-mode result slot created before any worker starts (lines
503-511): `exitCode` is the -1 running sentinel. -/
def parallelSlotInit (model task : String) (context : Option String) :
    SubagentResult :=
  { model := model, task := task, context := context, exitCode := -1, output := ""
    messages := [], usage := UsageStats.zero, stopReason := none
    errorMessage := none }

/-! ## Tool surface validation (execute, subagent.ts lines 463-564) -/

/-- `MAX_PARALLEL` (line 18). -/
def MAX_PARALLEL : ℕ := 8

/-- `MAX_CONCURRENCY` (line 19). -/
def MAX_CONCURRENCY : ℕ := 4

/-- One entry of the `tasks` array parameter (lines 441-446). -/
structure TaskItem where
  model : String
  task : String
  context : Option String
  tools : Option (List String)
deriving DecidableEq, Repr

/-- The tool parameters (lines 453-461): every field optional. -/
structure ToolParams where
  model : Option String
  task : Option String
  context : Option String
  tools : Option (List String)
  tasks : Option (List TaskItem)
deriving DecidableEq, Repr

/-- The fragment of JS values produced by the truthiness-chaining expressions
`params.model && params.task` and `params.tasks && params.tasks.length > 0`
(lines 473-474): `undefined`, a string, or a boolean. -/
inductive JsVal where
  | undef : JsVal
  | str (s : String) : JsVal
  | bool (b : Bool) : JsVal
deriving DecidableEq, Repr

/-- JS truthiness on this value fragment (`undefined` and `""` are falsy). -/
def JsVal.truthy : JsVal → Bool
  | .undef => false
  | .str s => s != ""
  | .bool b => b

/-- JS `a && b`: yields `a` when `a` is falsy, otherwise `b`. -/
def jsAnd (a b : JsVal) : JsVal := if a.truthy then b else a

/-- JS strict equality `===` on this value fragment: values of different
runtime types are never strictly equal. -/
def jsStrictEq : JsVal → JsVal → Bool
  | .undef, .undef => true
  | .str s, .str t => s == t
  | .bool a, .bool b => a == b
  | _, _ => false

/-- An optional string parameter, seen as a JS value. -/
def optStrVal : Option String → JsVal
  | none => .undef
  | some s => .str s

/-- The available-models map (getAvailableModels, lines 248-268), as an
association list from the lowercased `provider/id` key to the
`provider/id` string that `resolveModel` returns for it (line 470). -/
abbrev ModelMap := List (String × String)

/-- JS `model.toLowerCase()` (line 468), character-wise. -/
def jsToLower (s : String) : String := String.mk (s.data.map Char.toLower)

/-- `resolveModel` (lines 467-471): exact map lookup of the lowercased
token; `none` when absent. -/
def resolveModel (models : ModelMap) (m : String) : Option String :=
  models.lookup (jsToLower m)

/-- The fail-fast validation loop of lines 492-500: the first task, in array
order, whose model does not resolve. -/
def firstUnknownModel (models : ModelMap) : List TaskItem → Option TaskItem
  | [] => none
  | t :: ts =>
    match resolveModel models t.model with
    | none => some t
    | some _ => firstUnknownModel models ts

/-- The observable outcome of the validation prefix of `execute` (lines
463-526 and 557-564): either an immediate error result (`isError: true`,
nothing spawned, no SubagentResult created), or control reaching one of the
two spawn points, or a JS TypeError from `params.model!.toLowerCase()` when
single mode is entered without a model. -/
inductive ExecOutcome where
  | errorBadShape (availableModels : List String) : ExecOutcome
  | errorTooMany (count : ℕ) : ExecOutcome
  | errorUnknownModel (model : String) (availableModels : List String) : ExecOutcome
  | errorUnknownModelSingle (model : String) (availableModels : List String) :
      ExecOutcome
  | spawnParallel (tasks : List TaskItem) : ExecOutcome
  | spawnSingle (modelSpec : String) (task : Option String) : ExecOutcome
  | typeError : ExecOutcome
deriving DecidableEq, Repr

/-- The dispatch/validation logic of `execute` (lines 463-526 for the checks
and the parallel entry, lines 557-564 for the single entry), with JS
truthiness and strict equality modelled exactly:
`hasSingle = params.model && params.task` is `undefined` or a string, and
`hasParallel = params.tasks && params.tasks.length > 0` is `undefined` or a
boolean; the guard is `hasSingle === hasParallel`. -/
def executeDispatch (models : ModelMap) (p : ToolParams) : ExecOutcome :=
  let availableModels := models.map Prod.fst
  let hasSingle := jsAnd (optStrVal p.model) (optStrVal p.task)
  let hasParallel :=
    match p.tasks with
    | none => JsVal.undef
    | some ts => JsVal.bool (decide (0 < ts.length))
  if jsStrictEq hasSingle hasParallel then .errorBadShape availableModels
  else if hasParallel.truthy then
    let ts := p.tasks.getD []
    if MAX_PARALLEL < ts.length then .errorTooMany ts.length
    else
      match firstUnknownModel models ts with
      | some t => .errorUnknownModel t.model availableModels
      | none => .spawnParallel ts
  else
    match p.model with
    | none => .typeError
    | some m =>
      match resolveModel models m with
      | none => .errorUnknownModelSingle m availableModels
      | some spec => .spawnSingle spec p.task

/-! ## Concurrency scheduler (mapWithConcurrency, subagent.ts lines 48-63)

JS runs every worker body on one thread, so the test-and-claim
`while (nextIndex < items.length) { const index = nextIndex++; ... }`
(lines 56-57) executes atomically between suspension points; the only
suspension point is `await fn(items[index], index)` (line 58).  The workers
are `min(concurrency, items.length)` identical closures (line 55), so the
pool is modelled as a multiset of worker statuses and the execution as a
small-step relation with interleaving chosen by the event loop. -/

/-- The status of one `mapWithConcurrency` worker: about to re-test the loop
condition (`idle`), awaiting `fn(items[i], i)` for a claimed index
(`running i`), or fallen out of the while loop (`done`). -/
inductive WStatus where
  | idle : WStatus
  | running (i : ℕ) : WStatus
  | done : WStatus
deriving DecidableEq

/-- A scheduler state: the shared `nextIndex` cursor (line 54), the worker
pool, and the multiset of indices whose task has run to completion
(`results[index] = await fn(...)` has assigned, line 58). -/
structure SchedState where
  nextIndex : ℕ
  workers : Multiset WStatus
  completed : Multiset ℕ
deriving DecidableEq

/-- The initial state for `N` tasks: `Math.min(concurrency, items.length)`
idle workers (line 55) with `concurrency = MAX_CONCURRENCY` at the call site
(line 526), cursor at 0, nothing completed. -/
def schedInit (N : ℕ) : SchedState :=
  ⟨0, Multiset.replicate (min MAX_CONCURRENCY N) WStatus.idle, 0⟩

/-- The atomic transitions of `mapWithConcurrency` on `N` tasks: an idle
worker claims the next index when one remains (`claim`), a running worker
completes its awaited task (`finish`), and an idle worker exits the loop when
the queue is exhausted (`exit`). -/
inductive SchedStep (N : ℕ) : SchedState → SchedState → Prop
  | claim (n : ℕ) (ws : Multiset WStatus) (c : Multiset ℕ) (h : n < N) :
      SchedStep N ⟨n, WStatus.idle ::ₘ ws, c⟩
        ⟨n + 1, WStatus.running n ::ₘ ws, c⟩
  | finish (n i : ℕ) (ws : Multiset WStatus) (c : Multiset ℕ) :
      SchedStep N ⟨n, WStatus.running i ::ₘ ws, c⟩
        ⟨n, WStatus.idle ::ₘ ws, i ::ₘ c⟩
  | exit (n : ℕ) (ws : Multiset WStatus) (c : Multiset ℕ) (h : N ≤ n) :
      SchedStep N ⟨n, WStatus.idle ::ₘ ws, c⟩ ⟨n, WStatus.done ::ₘ ws, c⟩

/-- Scheduler states reachable from the initial state under any event-loop
interleaving. -/
def SchedReachable (N : ℕ) (s : SchedState) : Prop :=
  Relation.ReflTransGen (SchedStep N) (schedInit N) s

/-- The indices currently being run by some worker. -/
def runningIndices (ws : Multiset WStatus) : Multiset ℕ :=
  ws.filterMap fun st =>
    match st with
    | WStatus.running i => some i
    | _ => none

/-- `Promise.all(workers)` has resolved (line 61): every worker has exited its
loop. -/
def AllDone (s : SchedState) : Prop :=
  ∀ st ∈ s.workers, st = WStatus.done

/-- The inductive invariant of the scheduler: the claimed indices (running or
completed) are exactly `0 .. nextIndex-1`, each exactly once; the pool size is
fixed at `min MAX_CONCURRENCY N`; the cursor never passes `N`; and a worker
only exits once the queue is exhausted. -/
def SchedInv (N : ℕ) (s : SchedState) : Prop :=
  runningIndices s.workers + s.completed = Multiset.range s.nextIndex ∧
  Multiset.card s.workers = min MAX_CONCURRENCY N ∧
  s.nextIndex ≤ N ∧
  (WStatus.done ∈ s.workers → N ≤ s.nextIndex)

/-! ## Byte-level stdout decoding (for C2)

The `data` handler receives Buffer chunks and calls `data.toString()`
(line 355), which decodes EACH CHUNK INDEPENDENTLY as UTF-8: a multi-byte
character severed by a chunk boundary decodes to U+FFFD replacement
characters, one per invalid or truncated subsequence.  The byte-level
handler below is the decode composed with the string-level handler
`feedChunk`. -/

/-- Whether a byte is a UTF-8 continuation byte (`10xxxxxx`). -/
def isCont (b : ℕ) : Bool := decide (0x80 ≤ b) && decide (b < 0xC0)

/-- The Unicode replacement character U+FFFD that UTF-8 decoding substitutes
for invalid or truncated byte sequences. -/
def replacementChar : Char := Char.ofNat 0xFFFD

/-- `data.toString()` on one Buffer chunk (line 355): UTF-8 decoding of the
byte list, emitting U+FFFD for each maximal invalid or truncated
subsequence.  Overlong-form and surrogate-range validation is omitted; it
does not arise in the byte streams considered here. -/
def utf8DecodeChunk : List ℕ → List Char
  | [] => []
  | b :: rest =>
    if b < 0x80 then Char.ofNat b :: utf8DecodeChunk rest
    else if b < 0xC0 then replacementChar :: utf8DecodeChunk rest
    else if b < 0xE0 then
      match rest with
      | [] => [replacementChar]
      | c1 :: rest' =>
          if isCont c1 then
            Char.ofNat ((b - 0xC0) * 0x40 + (c1 - 0x80)) :: utf8DecodeChunk rest'
          else replacementChar :: utf8DecodeChunk (c1 :: rest')
    else if b < 0xF0 then
      match rest with
      | [] => [replacementChar]
      | [c1] =>
          if isCont c1 then [replacementChar]
          else replacementChar :: utf8DecodeChunk [c1]
      | c1 :: c2 :: rest' =>
          if isCont c1 then
            if isCont c2 then
              Char.ofNat ((b - 0xE0) * 0x1000 + (c1 - 0x80) * 0x40 + (c2 - 0x80))
                :: utf8DecodeChunk rest'
            else replacementChar :: utf8DecodeChunk (c2 :: rest')
          else replacementChar :: utf8DecodeChunk (c1 :: c2 :: rest')
    else
      match rest with
      | [] => [replacementChar]
      | [c1] =>
          if isCont c1 then [replacementChar]
          else replacementChar :: utf8DecodeChunk [c1]
      | [c1, c2] =>
          if isCont c1 then
            if isCont c2 then [replacementChar]
            else replacementChar :: utf8DecodeChunk [c2]
          else replacementChar :: utf8DecodeChunk [c1, c2]
      | c1 :: c2 :: c3 :: rest' =>
          if isCont c1 then
            if isCont c2 then
              if isCont c3 then
                Char.ofNat ((b - 0xF0) * 0x40000 + (c1 - 0x80) * 0x1000
                    + (c2 - 0x80) * 0x40 + (c3 - 0x80)) :: utf8DecodeChunk rest'
              else replacementChar :: utf8DecodeChunk (c3 :: rest')
            else replacementChar :: utf8DecodeChunk (c2 :: c3 :: rest')
          else replacementChar :: utf8DecodeChunk (c1 :: c2 :: c3 :: rest')

/-- The stdout `data` handler at the byte level (lines 354-359): the Buffer
chunk is decoded by `data.toString()` — independently of every other chunk —
and the resulting string is fed to the buffering logic. -/
def feedChunkBytes (parse : List Char → Option StreamEvent)
    (st : StreamState) (chunk : List ℕ) : StreamState :=
  feedChunk parse st (utf8DecodeChunk chunk)

/-- Folding the byte-level `data` handler over all observed Buffer chunks. -/
def feedAllBytes (parse : List Char → Option StreamEvent)
    (st : StreamState) (chunks : List (List ℕ)) : StreamState :=
  chunks.foldl (feedChunkBytes parse) st

/-- One complete Process Runner execution observed at the byte level: like
`runSubagentModel`, but the stdout chunks are Buffer byte lists, each decoded
per-chunk by `data.toString()` before the line buffering. -/
def runSubagentModelBytes (parse : List Char → Option StreamEvent)
    (model task : String) (context : Option String) (chunks : List (List ℕ))
    (code : Option ℤ) (stderr : String) (wasAborted : Bool) : SubagentResult :=
  finishRun
    (onCloseResult parse
      (feedAllBytes parse ⟨[], runnerInit model task context⟩ chunks)
      code stderr)
    code wasAborted

/-- A parse front end that carries the decoded characters of the line into
the message text — the content sensitivity `JSON.parse` has on a
`message_end` event whose text field holds the line payload.  Used to
exhibit byte-level chunking counterexamples. -/
def parseEcho : List Char → Option StreamEvent :=
  fun l => some (StreamEvent.messageEnd
    ⟨Role.assistant, [ContentPart.text (String.mk l)], none, none, none⟩)

/-! ## Binary64 cost arithmetic (for C9)

The UsageStats fields are JS numbers, i.e. IEEE-754 binary64.  The integral
token and turn counts are summed exactly by binary64 addition, but `cost`
holds non-integral values, and `total.cost += r.usage.cost` (line 641)
rounds after every addition.  The rounding model below is used to settle the
order-independence claim against the arithmetic the source actually
performs. -/

/-- Largest `k` (at most `fuel`) with `b * 2 ^ k ≤ a`; fuel-indexed so the
kernel can compute it. -/
def log2FloorAux : ℕ → ℕ → ℕ → ℕ
  | 0, _, _ => 0
  | fuel + 1, a, b => if 2 * b ≤ a then log2FloorAux fuel a (2 * b) + 1 else 0

/-- Smallest `t` (at most `fuel`) with `b ≤ a * 2 ^ t`. -/
def log2CeilAux : ℕ → ℕ → ℕ → ℕ
  | 0, _, _ => 0
  | fuel + 1, a, b => if b ≤ a then 0 else log2CeilAux fuel (2 * a) b + 1

/-- Floor of the base-2 logarithm of a positive rational. -/
def ratLog2Floor (q : ℚ) : ℤ :=
  let a := q.num.toNat
  let b := q.den
  if b ≤ a then (log2FloorAux (a + b) a b : ℤ)
  else -(log2CeilAux (a + b) a b : ℤ)

/-- Round a rational to the nearest integer, ties to even. -/
def rne (x : ℚ) : ℤ :=
  let f := ⌊x⌋
  let r := x - (f : ℚ)
  if r < 1 / 2 then f
  else if 1 / 2 < r then f + 1
  else if f % 2 = 0 then f else f + 1

/-- Round a rational to the nearest IEEE-754 binary64 value (round to
nearest, ties to even), in the normal range — overflow and subnormals do not
arise at cost magnitudes.  The result is `m * 2 ^ (e - 52)` with a 53-bit
significand `m`. -/
def roundToDouble (q : ℚ) : ℚ :=
  if q = 0 then 0
  else
    let a := |q|
    let e : ℤ := ratLog2Floor a
    let m : ℤ := rne (a * (2 : ℚ) ^ (52 - e))
    let v : ℚ := (m : ℚ) * (2 : ℚ) ^ (e - 52)
    if q < 0 then -v else v

/-- JS `+` on two numbers (binary64 values): the exact sum rounded back to
binary64. -/
def doubleAdd (a b : ℚ) : ℚ := roundToDouble (a + b)

/-- The cost column of `aggregateUsage` as the source computes it:
`total.cost += r.usage.cost` (line 641) over JS doubles, i.e. a left fold
with per-addition binary64 rounding. -/
def aggregateCostDouble (costs : List ℚ) : ℚ :=
  costs.foldl doubleAdd 0

/-! ## Lemmas: usage aggregation (for C9) -/

theorem UsageStats.zero_add (a : UsageStats) : UsageStats.add UsageStats.zero a = a := by
  simp [UsageStats.add, UsageStats.zero]

theorem UsageStats.add_zero (a : UsageStats) : UsageStats.add a UsageStats.zero = a := by
  simp [UsageStats.add, UsageStats.zero]

theorem UsageStats.add_assoc (a b c : UsageStats) :
    UsageStats.add (UsageStats.add a b) c = UsageStats.add a (UsageStats.add b c) := by
  simp only [UsageStats.add, UsageStats.mk.injEq]
  refine ⟨?_, ?_, ?_, ?_, ?_, ?_⟩ <;> ring

theorem UsageStats.add_comm (a b : UsageStats) :
    UsageStats.add a b = UsageStats.add b a := by
  simp only [UsageStats.add, UsageStats.mk.injEq]
  refine ⟨?_, ?_, ?_, ?_, ?_, ?_⟩ <;> ring

/-- The step function used inside `aggregateUsage` coincides with
`UsageStats.add` on the usage field. -/
theorem aggregateUsage_foldl_eq (l : List SubagentResult) :
    ∀ acc : UsageStats,
      l.foldl
        (fun total r =>
          { input := total.input + r.usage.input
            output := total.output + r.usage.output
            cacheRead := total.cacheRead + r.usage.cacheRead
            cacheWrite := total.cacheWrite + r.usage.cacheWrite
            cost := total.cost + r.usage.cost
            turns := total.turns + r.usage.turns }) acc
      = UsageStats.add acc (aggregateUsage l) := by
  induction l with
  | nil =>
      intro acc
      simp [aggregateUsage, UsageStats.add_zero]
  | cons r l ih =>
      intro acc
      have hstep : ∀ t : UsageStats,
          ({ input := t.input + r.usage.input
             output := t.output + r.usage.output
             cacheRead := t.cacheRead + r.usage.cacheRead
             cacheWrite := t.cacheWrite + r.usage.cacheWrite
             cost := t.cost + r.usage.cost
             turns := t.turns + r.usage.turns } : UsageStats)
          = UsageStats.add t r.usage := by
        intro t; rfl
      calc (r :: l).foldl _ acc
          = l.foldl _ (UsageStats.add acc r.usage) := by
            simp only [List.foldl_cons, hstep]
        _ = UsageStats.add (UsageStats.add acc r.usage) (aggregateUsage l) := ih _
        _ = UsageStats.add acc (UsageStats.add r.usage (aggregateUsage l)) :=
            UsageStats.add_assoc _ _ _
        _ = UsageStats.add acc (aggregateUsage (r :: l)) := by
            have : aggregateUsage (r :: l)
                = UsageStats.add r.usage (aggregateUsage l) := by
              have h0 := ih (UsageStats.add UsageStats.zero r.usage)
              simpa [aggregateUsage, hstep, UsageStats.zero_add] using h0
            rw [this]

/-- `aggregateUsage` distributes over list append (associativity of the
aggregation: grouping does not matter). -/
theorem aggregateUsage_append (a b : List SubagentResult) :
    aggregateUsage (a ++ b) = UsageStats.add (aggregateUsage a) (aggregateUsage b) := by
  have h := aggregateUsage_foldl_eq b (aggregateUsage a)
  calc aggregateUsage (a ++ b)
      = b.foldl _ (aggregateUsage a) := by
        simp [aggregateUsage, List.foldl_append]
    _ = UsageStats.add (aggregateUsage a) (aggregateUsage b) := h

/-- Unfolding `aggregateUsage` one result at a time. -/
theorem aggregateUsage_cons (x : SubagentResult) (l : List SubagentResult) :
    aggregateUsage (x :: l) = UsageStats.add x.usage (aggregateUsage l) := by
  have h := aggregateUsage_foldl_eq l (UsageStats.add UsageStats.zero x.usage)
  calc aggregateUsage (x :: l)
      = l.foldl _ (UsageStats.add UsageStats.zero x.usage) := by
        simp only [aggregateUsage, List.foldl_cons]; rfl
    _ = UsageStats.add (UsageStats.add UsageStats.zero x.usage) (aggregateUsage l) := h
    _ = UsageStats.add x.usage (aggregateUsage l) := by rw [UsageStats.zero_add]

/-- `aggregateUsage` is invariant under permutation of the result list
(commutativity of the aggregation: order does not matter). -/
theorem aggregateUsage_perm {l₁ l₂ : List SubagentResult} (h : l₁.Perm l₂) :
    aggregateUsage l₁ = aggregateUsage l₂ := by
  induction h with
  | nil => rfl
  | cons x _ ih => rw [aggregateUsage_cons, aggregateUsage_cons, ih]
  | swap x y l =>
      rw [aggregateUsage_cons, aggregateUsage_cons, aggregateUsage_cons,
        aggregateUsage_cons, ← UsageStats.add_assoc, ← UsageStats.add_assoc,
        UsageStats.add_comm x.usage y.usage]
  | trans _ _ ih₁ ih₂ => exact ih₁.trans ih₂

/-! ## Lemmas: the concurrency scheduler (for C1) -/

theorem runningIndices_cons_idle (ws : Multiset WStatus) :
    runningIndices (WStatus.idle ::ₘ ws) = runningIndices ws :=
  Multiset.filterMap_cons_none _ _ rfl

theorem runningIndices_cons_done (ws : Multiset WStatus) :
    runningIndices (WStatus.done ::ₘ ws) = runningIndices ws :=
  Multiset.filterMap_cons_none _ _ rfl

theorem runningIndices_cons_running (i : ℕ) (ws : Multiset WStatus) :
    runningIndices (WStatus.running i ::ₘ ws) = i ::ₘ runningIndices ws :=
  Multiset.filterMap_cons_some _ _ _ rfl

theorem card_runningIndices_le (ws : Multiset WStatus) :
    Multiset.card (runningIndices ws) ≤ Multiset.card ws := by
  induction ws using Multiset.induction_on with
  | empty => simp [runningIndices]
  | cons a s ih =>
      cases a with
      | idle =>
          rw [runningIndices_cons_idle, Multiset.card_cons]
          omega
      | running i =>
          rw [runningIndices_cons_running, Multiset.card_cons, Multiset.card_cons]
          omega
      | done =>
          rw [runningIndices_cons_done, Multiset.card_cons]
          omega

theorem runningIndices_replicate_idle (k : ℕ) :
    runningIndices (Multiset.replicate k WStatus.idle) = 0 := by
  induction k with
  | zero => rfl
  | succ k ih => rw [Multiset.replicate_succ, runningIndices_cons_idle, ih]

theorem schedInv_init (N : ℕ) : SchedInv N (schedInit N) := by
  refine ⟨?_, ?_, ?_, ?_⟩
  · show runningIndices (Multiset.replicate (min MAX_CONCURRENCY N) WStatus.idle)
        + 0 = Multiset.range 0
    rw [runningIndices_replicate_idle]
    rfl
  · show Multiset.card (Multiset.replicate (min MAX_CONCURRENCY N) WStatus.idle) = _
    rw [Multiset.card_replicate]
  · exact Nat.zero_le N
  · intro hmem
    have h := Multiset.eq_of_mem_replicate (show WStatus.done ∈ _ from hmem)
    exact absurd h (by decide)

theorem schedInv_step {N : ℕ} {s t : SchedState} (h : SchedStep N s t)
    (hinv : SchedInv N s) : SchedInv N t := by
  cases h with
  | claim n ws c hn =>
      obtain ⟨hsum, hcard, hle, hdone⟩ := hinv
      rw [show (⟨n, WStatus.idle ::ₘ ws, c⟩ : SchedState).workers
          = WStatus.idle ::ₘ ws from rfl, runningIndices_cons_idle] at hsum
      refine ⟨?_, ?_, ?_, ?_⟩
      · show runningIndices (WStatus.running n ::ₘ ws) + c = Multiset.range (n + 1)
        rw [runningIndices_cons_running, Multiset.cons_add, Multiset.range_succ]
        exact congrArg _ hsum
      · show Multiset.card (WStatus.running n ::ₘ ws) = _
        rw [Multiset.card_cons]
        rw [show (⟨n, WStatus.idle ::ₘ ws, c⟩ : SchedState).workers
            = WStatus.idle ::ₘ ws from rfl, Multiset.card_cons] at hcard
        exact hcard
      · exact hn
      · intro hmem
        have hws : WStatus.done ∈ ws := by
          rcases Multiset.mem_cons.mp hmem with heq | hws
          · exact WStatus.noConfusion heq
          · exact hws
        have := hdone (Multiset.mem_cons.mpr (Or.inr hws))
        exact Nat.le_succ_of_le this
  | finish n i ws c =>
      obtain ⟨hsum, hcard, hle, hdone⟩ := hinv
      rw [show (⟨n, WStatus.running i ::ₘ ws, c⟩ : SchedState).workers
          = WStatus.running i ::ₘ ws from rfl, runningIndices_cons_running,
          Multiset.cons_add] at hsum
      refine ⟨?_, ?_, ?_, ?_⟩
      · show runningIndices (WStatus.idle ::ₘ ws) + (i ::ₘ c) = Multiset.range n
        rw [runningIndices_cons_idle, Multiset.add_cons]
        exact hsum
      · show Multiset.card (WStatus.idle ::ₘ ws) = _
        rw [Multiset.card_cons]
        rw [show (⟨n, WStatus.running i ::ₘ ws, c⟩ : SchedState).workers
            = WStatus.running i ::ₘ ws from rfl, Multiset.card_cons] at hcard
        exact hcard
      · exact hle
      · intro hmem
        have hws : WStatus.done ∈ ws := by
          rcases Multiset.mem_cons.mp hmem with heq | hws
          · exact WStatus.noConfusion heq
          · exact hws
        exact hdone (Multiset.mem_cons.mpr (Or.inr hws))
  | exit n ws c hn =>
      obtain ⟨hsum, hcard, hle, hdone⟩ := hinv
      rw [show (⟨n, WStatus.idle ::ₘ ws, c⟩ : SchedState).workers
          = WStatus.idle ::ₘ ws from rfl, runningIndices_cons_idle] at hsum
      refine ⟨?_, ?_, ?_, ?_⟩
      · show runningIndices (WStatus.done ::ₘ ws) + c = Multiset.range n
        rw [runningIndices_cons_done]
        exact hsum
      · show Multiset.card (WStatus.done ::ₘ ws) = _
        rw [Multiset.card_cons]
        rw [show (⟨n, WStatus.idle ::ₘ ws, c⟩ : SchedState).workers
            = WStatus.idle ::ₘ ws from rfl, Multiset.card_cons] at hcard
        exact hcard
      · exact hle
      · intro _
        exact hn

theorem schedInv_reachable {N : ℕ} {s : SchedState} (h : SchedReachable N s) :
    SchedInv N s := by
  have h' : Relation.ReflTransGen (SchedStep N) (schedInit N) s := h
  clear h
  induction h' with
  | refl => exact schedInv_init N
  | tail _ hstep ih => exact schedInv_step hstep ih

theorem runningIndices_eq_zero {ws : Multiset WStatus}
    (h : ∀ st ∈ ws, st = WStatus.done) : runningIndices ws = 0 := by
  induction ws using Multiset.induction_on with
  | empty => rfl
  | cons a s ih =>
      have ha : a = WStatus.done := h a (Multiset.mem_cons_self a s)
      subst ha
      rw [runningIndices_cons_done]
      exact ih fun st hst => h st (Multiset.mem_cons_of_mem hst)

/-- **C1.** For every fleet of `N` tasks (`1 ≤ N ≤ 8`) submitted to
`mapWithConcurrency` with the call-site concurrency cap `MAX_CONCURRENCY = 4`
(subagent.ts lines 48-63 and 526): in every scheduler state reachable under
any event-loop interleaving, at most `min MAX_CONCURRENCY N` tasks are running
simultaneously; and whenever `Promise.all(workers)` has resolved (all workers
done), the multiset of completed task indices is exactly `0, ..., N-1` —
every task was run exactly once, and the promise resolves only after every
task has completed (a join over all workers). -/
theorem mapWithConcurrency_correct (N : ℕ) (hN : 1 ≤ N) (hN8 : N ≤ 8)
    (s : SchedState) (hs : SchedReachable N s) :
    Multiset.card (runningIndices s.workers) ≤ min MAX_CONCURRENCY N ∧
    (AllDone s → s.completed = Multiset.range N) := by
  obtain ⟨hsum, hcard, hle, hdone⟩ := schedInv_reachable hs
  constructor
  · calc Multiset.card (runningIndices s.workers)
        ≤ Multiset.card s.workers := card_runningIndices_le _
      _ = min MAX_CONCURRENCY N := hcard
  · intro hall
    have hrun : runningIndices s.workers = 0 := runningIndices_eq_zero hall
    have h4 : MAX_CONCURRENCY = 4 := rfl
    have hwne : s.workers ≠ 0 := by
      intro h0
      rw [h0, h4] at hcard
      simp only [Multiset.card_zero] at hcard
      omega
    obtain ⟨a, ha⟩ := Multiset.exists_mem_of_ne_zero hwne
    have haD : a = WStatus.done := hall a ha
    subst haD
    have hNn : s.nextIndex = N := le_antisymm hle (hdone ha)
    rw [hrun, hNn] at hsum
    simpa using hsum

/-- A complete concrete scheduler execution on one task:
claim index 0, finish it, exit the worker. -/
theorem schedReachable_one :
    SchedReachable 1 ⟨1, WStatus.done ::ₘ 0, (0 : ℕ) ::ₘ 0⟩ := by
  have h0 : schedInit 1 = ⟨0, WStatus.idle ::ₘ 0, 0⟩ := by
    have hm : min MAX_CONCURRENCY 1 = 1 := by decide
    rw [schedInit, hm]
    rfl
  have s1 := SchedStep.claim (N := 1) 0 0 0 (by decide)
  have s2 := SchedStep.finish (N := 1) 1 0 0 0
  have s3 := SchedStep.exit (N := 1) 1 0 ((0 : ℕ) ::ₘ 0) (by decide)
  have hchain := Relation.ReflTransGen.tail
    (Relation.ReflTransGen.tail (Relation.ReflTransGen.single s1) s2) s3
  show Relation.ReflTransGen (SchedStep 1) (schedInit 1) _
  rw [h0]
  exact hchain

/-! ## Lemmas: chunked stream parsing (for C2) -/

theorem splitNl_ne_nil (s : List Char) : splitNl s ≠ [] := by
  cases s with
  | nil => simp [splitNl]
  | cons c rest =>
      rcases hr : splitNl rest with _ | ⟨l, ls⟩
      · simp [splitNl, hr]
      · by_cases hc : c = '\n' <;> simp [splitNl, hr, hc]

theorem splitNl_cons_of_eq {rest : List Char} {l : List Char}
    {ls : List (List Char)} (hr : splitNl rest = l :: ls) (c : Char) :
    splitNl (c :: rest) =
      if c = '\n' then [] :: l :: ls else (c :: l) :: ls := by
  simp [splitNl, hr]

theorem glueSegs_ne_nil (xs ys : List (List Char)) (hxs : xs ≠ []) :
    glueSegs xs ys ≠ [] := by
  match xs, ys with
  | [], _ => exact absurd rfl hxs
  | [x], [] => simp [glueSegs]
  | [x], y :: ys => simp [glueSegs]
  | x :: x2 :: xs, ys => simp [glueSegs]

theorem splitNl_append (x y : List Char) :
    splitNl (x ++ y) = glueSegs (splitNl x) (splitNl y) := by
  induction x with
  | nil =>
      rcases hy : splitNl y with _ | ⟨h, t⟩
      · exact absurd hy (splitNl_ne_nil y)
      · simp [splitNl, glueSegs, hy]
  | cons c x' ih =>
      rcases hx : splitNl x' with _ | ⟨l, ls⟩
      · exact absurd hx (splitNl_ne_nil x')
      · rcases hy : splitNl y with _ | ⟨h, t⟩
        · exact absurd hy (splitNl_ne_nil y)
        · have hxy : splitNl (x' ++ y) = glueSegs (l :: ls) (h :: t) := by
            rw [ih, hx, hy]
          rcases hg : glueSegs (l :: ls) (h :: t) with _ | ⟨g, gs⟩
          · exact absurd hg (glueSegs_ne_nil _ _ (by simp))
          · rw [List.cons_append, splitNl_cons_of_eq (hxy.trans hg),
              splitNl_cons_of_eq hx]
            by_cases hc : c = '\n'
            · rw [if_pos hc, if_pos hc]
              cases ls with
              | nil => simp [glueSegs, ← hg]
              | cons l2 ls2 => simp [glueSegs, ← hg]
            · rw [if_neg hc, if_neg hc]
              cases ls with
              | nil =>
                  simp only [glueSegs] at hg
                  obtain ⟨hg1, hg2⟩ := List.cons.injEq _ _ _ _ ▸ hg
                  subst hg1
                  subst hg2
                  simp [glueSegs]
              | cons l2 ls2 =>
                  simp only [glueSegs] at hg
                  obtain ⟨hg1, hg2⟩ := List.cons.injEq _ _ _ _ ▸ hg
                  subst hg1
                  subst hg2
                  simp [glueSegs]

theorem getLastD_irrel (b : List Char) (l : List (List Char))
    (d d' : List Char) : (b :: l).getLastD d = (b :: l).getLastD d' := by
  rw [List.getLastD_cons, List.getLastD_cons]

theorem nlFree_splitNl_getLastD (s : List Char) :
    '\n' ∉ (splitNl s).getLastD [] := by
  induction s with
  | nil => simp [splitNl]
  | cons c rest ih =>
      rcases hr : splitNl rest with _ | ⟨l, ls⟩
      · exact absurd hr (splitNl_ne_nil rest)
      · rw [hr] at ih
        rw [splitNl_cons_of_eq hr]
        by_cases hc : c = '\n'
        · rw [if_pos hc, List.getLastD_cons]
          exact ih
        · rw [if_neg hc]
          cases ls with
          | nil =>
              rw [List.getLastD_cons, List.getLastD_nil]
              rw [List.getLastD_cons, List.getLastD_nil] at ih
              intro hmem
              rcases List.mem_cons.mp hmem with he | hl
              · exact hc he.symm
              · exact ih hl
          | cons l2 ls2 =>
              rw [List.getLastD_cons]
              rw [List.getLastD_cons] at ih
              rw [getLastD_irrel l2 ls2 (c :: l) l]
              exact ih

theorem splitNl_of_nlFree {s : List Char} (h : '\n' ∉ s) : splitNl s = [s] := by
  induction s with
  | nil => simp [splitNl]
  | cons c rest ih =>
      have hc : c ≠ '\n' := fun e => h (e ▸ List.mem_cons_self c rest)
      have hr : '\n' ∉ rest := fun e => h (List.mem_cons_of_mem c e)
      rw [splitNl_cons_of_eq (ih hr), if_neg hc]

theorem glueSegs_getLastD (P : List (List Char)) (hp : P ≠ [])
    (Q : List (List Char)) :
    (glueSegs P Q).getLastD [] = (glueSegs [P.getLastD []] Q).getLastD [] := by
  induction P with
  | nil => exact absurd rfl hp
  | cons x P' ih =>
      cases P' with
      | nil => rfl
      | cons x2 P'' =>
          rcases hgg : glueSegs (x2 :: P'') Q with _ | ⟨g, gs⟩
          · exact absurd hgg (glueSegs_ne_nil (x2 :: P'') Q (by simp))
          · have h1 : glueSegs (x :: x2 :: P'') Q = x :: glueSegs (x2 :: P'') Q := by
              simp [glueSegs]
            rw [h1, hgg, List.getLastD_cons, getLastD_irrel g gs x [], ← hgg,
              ih (by simp)]
            have h2 : (x :: x2 :: P'').getLastD ([] : List Char)
                = (x2 :: P'').getLastD [] := by
              rw [List.getLastD_cons, getLastD_irrel]
            rw [h2]

theorem glueSegs_dropLast (P : List (List Char)) (hp : P ≠ [])
    (Q : List (List Char)) :
    (glueSegs P Q).dropLast
      = P.dropLast ++ (glueSegs [P.getLastD []] Q).dropLast := by
  induction P with
  | nil => exact absurd rfl hp
  | cons x P' ih =>
      cases P' with
      | nil => simp [List.getLastD_cons]
      | cons x2 P'' =>
          rcases hgg : glueSegs (x2 :: P'') Q with _ | ⟨g, gs⟩
          · exact absurd hgg (glueSegs_ne_nil (x2 :: P'') Q (by simp))
          · have h1 : glueSegs (x :: x2 :: P'') Q = x :: glueSegs (x2 :: P'') Q := by
              simp [glueSegs]
            have h2 : (x :: x2 :: P'').getLastD ([] : List Char)
                = (x2 :: P'').getLastD [] := by
              rw [List.getLastD_cons, getLastD_irrel]
            rw [h1, hgg, List.dropLast_cons₂, List.dropLast_cons₂, h2, ← hgg,
              ih (by simp), List.cons_append]

theorem feedChunk_eq (parse : List Char → Option StreamEvent)
    (st : StreamState) (chunk : List Char) :
    feedChunk parse st chunk
      = ⟨(splitNl (st.buffer ++ chunk)).getLastD [],
         (splitNl (st.buffer ++ chunk)).dropLast.foldl (processLine parse)
           st.result⟩ := rfl

theorem feedChunk_feedChunk (parse : List Char → Option StreamEvent)
    (st : StreamState) (a b : List Char) :
    feedChunk parse (feedChunk parse st a) b = feedChunk parse st (a ++ b) := by
  rw [feedChunk_eq parse st a, feedChunk_eq, feedChunk_eq]
  dsimp only
  have hsplit : splitNl ((splitNl (st.buffer ++ a)).getLastD [] ++ b)
      = glueSegs [(splitNl (st.buffer ++ a)).getLastD []] (splitNl b) := by
    rw [splitNl_append,
      splitNl_of_nlFree (nlFree_splitNl_getLastD (st.buffer ++ a))]
  have hright : splitNl (st.buffer ++ (a ++ b))
      = glueSegs (splitNl (st.buffer ++ a)) (splitNl b) := by
    rw [← List.append_assoc, splitNl_append]
  simp only [StreamState.mk.injEq]
  constructor
  · rw [hsplit, hright, glueSegs_getLastD _ (splitNl_ne_nil _) _]
  · rw [hsplit, hright, glueSegs_dropLast _ (splitNl_ne_nil _) _,
      List.foldl_append]

theorem feedAll_join (parse : List Char → Option StreamEvent)
    (st : StreamState) (chunks : List (List Char)) (hbuf : '\n' ∉ st.buffer) :
    feedAll parse st chunks = feedChunk parse st chunks.flatten := by
  induction chunks generalizing st with
  | nil =>
      show st = feedChunk parse st []
      rw [feedChunk_eq, List.append_nil, splitNl_of_nlFree hbuf]
      rfl
  | cons c cs ih =>
      show feedAll parse (feedChunk parse st c) cs = _
      rw [ih (feedChunk parse st c)
          (by rw [feedChunk_eq]; exact nlFree_splitNl_getLastD _),
        feedChunk_feedChunk]
      simp

/-- **C2 (amended).** Stream parsing is chunk-boundary-insensitive for every
split of the decoded character stream — equivalently, for every byte-level
split that falls on UTF-8 character boundaries: any two such chunkings of the
same stream end with the identical final SubagentResult, because partial
trailing lines are buffered across chunks, lines are split only on complete
newlines and the residual buffer is processed as a final line on stream end;
moreover a line that fails to parse is discarded without affecting the
result.  In particular every such chunking agrees with delivering each line
whole.  (As originally stated, over arbitrary BYTE splits, the claim is
false: `data.toString()` decodes each chunk independently, so a split inside
a multi-byte character garbles it to U+FFFD and the final result can change —
see the separate counterexample theorem.) -/
theorem stream_chunk_insensitive (parse : List Char → Option StreamEvent)
    (model task : String) (context : Option String)
    (chunks chunks' : List (List Char)) (code : Option ℤ) (stderr : String)
    (wasAborted : Bool) (h : chunks.flatten = chunks'.flatten) :
    runSubagentModel parse model task context chunks code stderr wasAborted
      = runSubagentModel parse model task context chunks' code stderr wasAborted
    ∧ (∀ (r : SubagentResult) (line : List Char),
        parse line = none → processLine parse r line = r) := by
  constructor
  · unfold runSubagentModel
    rw [feedAll_join parse _ chunks (by simp),
      feedAll_join parse _ chunks' (by simp), h]
  · intro r line hl
    unfold processLine
    rw [hl]
    split
    · rfl
    · rfl

/-- Witness for C2: the bytes `ab\nc` + `d` against `a` + `b\ncd` (same joined
stream, different chunk boundaries) give equal final results. -/
theorem stream_chunk_insensitive_witness :
    ([['a', 'b', '\n', 'c'], ['d']] : List (List Char)).flatten
        = ([['a'], ['b', '\n', 'c', 'd']] : List (List Char)).flatten ∧
    runSubagentModel (fun _ => none) "m" "t" none
        [['a', 'b', '\n', 'c'], ['d']] (some 0) "" false
      = runSubagentModel (fun _ => none) "m" "t" none
        [['a'], ['b', '\n', 'c', 'd']] (some 0) "" false :=
  ⟨by decide,
    (stream_chunk_insensitive (fun _ => none) "m" "t" none
      [['a', 'b', '\n', 'c'], ['d']] [['a'], ['b', '\n', 'c', 'd']]
      (some 0) "" false (by decide)).1⟩

/-- **C2 counterexample (claim as originally stated).** Byte-level
chunk-insensitivity fails: the same stdout byte stream `C3 A9 0A` (the
two-byte UTF-8 character LATIN SMALL LETTER E WITH ACUTE followed by a
newline) delivered whole versus split between its two bytes yields different
final SubagentResults, because `data.toString()` decodes each chunk
independently and turns the severed bytes into two U+FFFD replacement
characters, changing the line content that reaches `processLine`. -/
theorem byte_chunk_split_changes_result :
    ([[0xC3], [0xA9, 0x0A]] : List (List ℕ)).flatten
        = ([[0xC3, 0xA9, 0x0A]] : List (List ℕ)).flatten ∧
    runSubagentModelBytes parseEcho "m" "t" none [[0xC3], [0xA9, 0x0A]]
        (some 0) "" false
      ≠ runSubagentModelBytes parseEcho "m" "t" none [[0xC3, 0xA9, 0x0A]]
        (some 0) "" false := by
  constructor
  · decide
  · decide

/-- Witness for C1: the concrete one-task run above satisfies the bound and,
being all-done, completed exactly task 0. -/
theorem mapWithConcurrency_correct_witness :
    (⟨1, WStatus.done ::ₘ 0, (0 : ℕ) ::ₘ 0⟩ : SchedState).completed
      = Multiset.range 1 :=
  (mapWithConcurrency_correct 1 (by decide) (by decide) _ schedReachable_one).2
    (by intro st hst
        rcases Multiset.mem_cons.mp (show st ∈ WStatus.done ::ₘ 0 from hst)
          with heq | h0
        · exact heq
        · exact absurd h0 (by simp))

/-! ## Lemmas: event processing (for C3) -/

theorem getFinalOutput_append_assistant (msgs : List Msg) (m : Msg)
    (hrole : m.role = Role.assistant) (t : String)
    (ht : firstText m.content = some t) :
    getFinalOutput (msgs ++ [m]) = t := by
  unfold getFinalOutput
  rw [List.reverse_append]
  simp [getFinalOutputRev, hrole, ht]

/-- **C3.** For every parsed stream event processed by the Runner: a
`message_end` event whose message has the assistant role increments
`usage.turns` by exactly 1, replaces `output` with the text content found in
that message (last write wins, not an append), adds the reported usage deltas
(input, output, cacheRead, cacheWrite, cost.total) into the running
UsageStats, and captures `stopReason`/`errorMessage` when present (truthy); a
`tool_result_end` event changes neither usage fields nor the turn count. -/
theorem assistant_message_end_updates (r : SubagentResult) (m : Msg)
    (u : MsgUsage) (hrole : m.role = Role.assistant)
    (husage : m.usage = some u) :
    ((applyEvent r (StreamEvent.messageEnd m)).usage.turns
        = r.usage.turns + 1) ∧
    (∀ t, firstText m.content = some t →
        (applyEvent r (StreamEvent.messageEnd m)).output = t) ∧
    ((applyEvent r (StreamEvent.messageEnd m)).usage.input
        = r.usage.input + u.input.getD 0) ∧
    ((applyEvent r (StreamEvent.messageEnd m)).usage.output
        = r.usage.output + u.output.getD 0) ∧
    ((applyEvent r (StreamEvent.messageEnd m)).usage.cacheRead
        = r.usage.cacheRead + u.cacheRead.getD 0) ∧
    ((applyEvent r (StreamEvent.messageEnd m)).usage.cacheWrite
        = r.usage.cacheWrite + u.cacheWrite.getD 0) ∧
    ((applyEvent r (StreamEvent.messageEnd m)).usage.cost
        = r.usage.cost + u.costTotal.getD 0) ∧
    (strTruthy m.stopReason = true →
        (applyEvent r (StreamEvent.messageEnd m)).stopReason = m.stopReason) ∧
    (strTruthy m.errorMessage = true →
        (applyEvent r (StreamEvent.messageEnd m)).errorMessage
          = m.errorMessage) ∧
    (∀ m' : Msg,
        (applyEvent r (StreamEvent.toolResultEnd m')).usage = r.usage) := by
  by_cases hs : strTruthy m.stopReason = true <;>
    by_cases he : strTruthy m.errorMessage = true <;>
    refine ⟨by simp [applyEvent, hrole, husage, hs, he],
      fun t ht => by
        simp [applyEvent, hrole, husage, hs, he,
          getFinalOutput_append_assistant r.messages m hrole t ht],
      by simp [applyEvent, hrole, husage, hs, he],
      by simp [applyEvent, hrole, husage, hs, he],
      by simp [applyEvent, hrole, husage, hs, he],
      by simp [applyEvent, hrole, husage, hs, he],
      by simp [applyEvent, hrole, husage, hs, he],
      fun hstop => by
        first
        | exact absurd hstop hs
        | simp [applyEvent, hrole, husage, hs, he],
      fun herr => by
        first
        | exact absurd herr he
        | simp [applyEvent, hrole, husage, hs, he],
      fun m' => by simp [applyEvent]⟩

/-- Witness for C3: a concrete assistant `message_end` carrying text "hi" and
usage increments the turn counter of the fresh runner result from 0 to 1. -/
theorem assistant_message_end_updates_witness :
    (applyEvent (runnerInit "m" "t" none)
        (StreamEvent.messageEnd
          ⟨Role.assistant, [ContentPart.text "hi"],
            some ⟨some 10, some 2, none, none, none⟩,
            some "stop", none⟩)).usage.turns
      = (runnerInit "m" "t" none).usage.turns + 1 :=
  (assistant_message_end_updates (runnerInit "m" "t" none)
      ⟨Role.assistant, [ContentPart.text "hi"],
        some ⟨some 10, some 2, none, none, none⟩, some "stop", none⟩
      ⟨some 10, some 2, none, none, none⟩ rfl rfl).1

/-- **C8.** Whenever the cancellation signal was active at launch or became
active during execution (i.e. the kill closure of lines 378-388 ran and set
`wasAborted`), the returned terminal SubagentResult has
`stopReason = "aborted"` and `errorMessage = "Aborted by user"`, regardless
of the streamed events, the exit code, the stderr text, or any
stopReason/errorMessage the process itself reported. -/
theorem aborted_run_normalized (parse : List Char → Option StreamEvent)
    (model task : String) (context : Option String)
    (chunks : List (List Char)) (code : Option ℤ) (stderr : String) :
    (runSubagentModel parse model task context chunks code stderr
        true).stopReason = some "aborted" ∧
    (runSubagentModel parse model task context chunks code stderr
        true).errorMessage = some "Aborted by user" := by
  unfold runSubagentModel finishRun
  simp

/-- **C4 counter-evidence (code bug).** Supplying BOTH input shapes does not
yield the request-validation error: `hasSingle = params.model && params.task`
evaluates to the string `params.task` while `hasParallel` evaluates to the
boolean `true`, so the strict equality `hasSingle === hasParallel` of line
476 compares values of different runtime types, is false, and execution
proceeds into parallel mode and spawns the fleet. -/
theorem both_shapes_not_rejected :
    executeDispatch [("prov/x", "prov/x")]
        ⟨some "m", some "t", none, none, some [⟨"prov/x", "y", none, none⟩]⟩
      = ExecOutcome.spawnParallel [⟨"prov/x", "y", none, none⟩] := by
  decide

/-- **C5 counter-evidence (code bug).** A parallel slot is created with the
-1 running sentinel (line 507) and counts as not done, but the runner
initializes its own result with `exitCode = 0` (line 297) and every streamed
event fires `onUpdate`, which replaces the slot with that in-flight result
(lines 534-537).  So after the first assistant `message_end` event — with the
process still running, long before the `close` handler — the observable
snapshot has `exitCode = 0` and the progress reporter counts the
still-running task as done. -/
theorem running_snapshot_counted_done :
    (parallelSlotInit "prov/x" "t" none).exitCode = -1 ∧
    doneCount [parallelSlotInit "prov/x" "t" none] = 0 ∧
    (processLine
        (fun _ => some (StreamEvent.messageEnd
          ⟨Role.assistant, [ContentPart.text "hi"], none, none, none⟩))
        (runnerInit "prov/x" "t" none) ['e']).exitCode = 0 ∧
    doneCount [processLine
        (fun _ => some (StreamEvent.messageEnd
          ⟨Role.assistant, [ContentPart.text "hi"], none, none, none⟩))
        (runnerInit "prov/x" "t" none) ['e']] = 1 := by
  decide

/-! ## Lemmas: execute validation (for C6, C7) -/

theorem jsStrictEq_optStr_bool (a b : Option String) (c : Bool) :
    jsStrictEq (jsAnd (optStrVal a) (optStrVal b)) (JsVal.bool c) = false := by
  cases a <;> cases b <;>
    simp only [optStrVal, jsAnd, JsVal.truthy] <;>
    split <;> simp [jsStrictEq]

theorem firstUnknownModel_mem (models : ModelMap) (ts : List TaskItem) :
    firstUnknownModel models ts = none
      ∨ ∃ t, firstUnknownModel models ts = some t ∧ t ∈ ts ∧
          resolveModel models t.model = none := by
  induction ts with
  | nil => exact Or.inl rfl
  | cons t ts ih =>
      rcases hr : resolveModel models t.model with _ | spec
      · exact Or.inr ⟨t, by simp [firstUnknownModel, hr],
          List.mem_cons_self t ts, hr⟩
      · rcases ih with h | ⟨t', h1, h2, h3⟩
        · exact Or.inl (by simp [firstUnknownModel, hr, h])
        · exact Or.inr ⟨t', by simp [firstUnknownModel, hr, h1],
            List.mem_cons_of_mem t h2, h3⟩

theorem firstUnknownModel_none (models : ModelMap) (ts : List TaskItem)
    (h : firstUnknownModel models ts = none) :
    ∀ t ∈ ts, resolveModel models t.model ≠ none := by
  induction ts with
  | nil => intro t ht; exact absurd ht (List.not_mem_nil t)
  | cons t ts ih =>
      rcases hr : resolveModel models t.model with _ | spec
      · simp only [firstUnknownModel, hr] at h
        exact absurd h (by simp)
      · simp only [firstUnknownModel, hr] at h
        intro t' ht'
        rcases List.mem_cons.mp ht' with he | hm
        · rw [he, hr]; simp
        · exact ih h t' hm

/-- **C6.** Every parallel-mode request (tasks array present, non-empty and
within the size cap) in which at least one task names an unresolvable model
is rejected with the unknown-model error listing the available models: the
dispatch returns the error outcome instead of reaching the spawn point, so no
subprocess is spawned, no SubagentResult object is created, and no sibling
task runs. -/
theorem parallel_unknown_model_fail_fast (models : ModelMap) (p : ToolParams)
    (ts : List TaskItem) (hts : p.tasks = some ts) (h0 : 0 < ts.length)
    (hlen : ts.length ≤ MAX_PARALLEL)
    (hbad : ∃ t ∈ ts, resolveModel models t.model = none) :
    ∃ t ∈ ts, resolveModel models t.model = none ∧
      executeDispatch models p
        = ExecOutcome.errorUnknownModel t.model (models.map Prod.fst) := by
  rcases firstUnknownModel_mem models ts with hnone | ⟨t, h1, h2, h3⟩
  · obtain ⟨t, ht, hres⟩ := hbad
    exact absurd hres (firstUnknownModel_none models ts hnone t ht)
  · refine ⟨t, h2, h3, ?_⟩
    simp only [executeDispatch, hts]
    rw [decide_eq_true h0, jsStrictEq_optStr_bool]
    simp only [Bool.false_eq_true, if_false, JsVal.truthy, if_true,
      Option.getD_some]
    rw [if_neg (not_lt.mpr hlen), h1]

/-- **C7.** Every request whose tasks array has more than `MAX_PARALLEL = 8`
entries is rejected with the too-many-tasks error before any work starts: the
dispatch returns the error outcome instead of reaching either spawn point, so
no subprocess is spawned and no task runs, even partially. -/
theorem too_many_tasks_rejected (models : ModelMap) (p : ToolParams)
    (ts : List TaskItem) (hts : p.tasks = some ts)
    (hlen : MAX_PARALLEL < ts.length) :
    executeDispatch models p = ExecOutcome.errorTooMany ts.length := by
  have h0 : 0 < ts.length := lt_trans (by norm_num [MAX_PARALLEL]) hlen
  simp only [executeDispatch, hts]
  rw [decide_eq_true h0, jsStrictEq_optStr_bool]
  simp only [Bool.false_eq_true, if_false, JsVal.truthy, if_true,
    Option.getD_some]
  rw [if_pos hlen]

/-- Witness for C6: a one-task fleet naming the unknown model "nope" against
an available-model map holding only "prov/x" is rejected with the
unknown-model error listing the available models. -/
theorem parallel_unknown_model_fail_fast_witness :
    ∃ t ∈ [(⟨"nope", "t", none, none⟩ : TaskItem)],
      resolveModel [("prov/x", "prov/x")] t.model = none ∧
      executeDispatch [("prov/x", "prov/x")]
          ⟨none, none, none, none, some [⟨"nope", "t", none, none⟩]⟩
        = ExecOutcome.errorUnknownModel t.model ["prov/x"] :=
  parallel_unknown_model_fail_fast [("prov/x", "prov/x")]
    ⟨none, none, none, none, some [⟨"nope", "t", none, none⟩]⟩
    [⟨"nope", "t", none, none⟩] rfl (by decide) (by decide)
    ⟨⟨"nope", "t", none, none⟩, List.mem_singleton.mpr rfl, by decide⟩

/-- Witness for C7: a nine-task fleet is rejected with the too-many-tasks
error. -/
theorem too_many_tasks_rejected_witness :
    executeDispatch []
        ⟨none, none, none, none,
          some (List.replicate 9 ⟨"m", "t", none, none⟩)⟩
      = ExecOutcome.errorTooMany 9 :=
  too_many_tasks_rejected [] _ (List.replicate 9 ⟨"m", "t", none, none⟩)
    rfl (by decide)

/-- **C9 (amended).** Field-wise summation of per-task UsageStats into the
fleet total is commutative and associative whenever the additions are exact —
as binary64 addition is for the integral token and turn counts, and as the
rational model used here is for every field: permuting the result list leaves
`aggregateUsage` unchanged, and aggregation distributes over concatenation
via field-wise addition, so summing in any order or grouping yields the same
totals.  (As originally stated the law also covered the cost totals the code
actually computes; those are IEEE-754 double sums, which are NOT
order-independent — see the separate counterexample theorem.) -/
theorem usage_aggregation_comm_assoc {l₁ l₂ : List SubagentResult}
    (h : l₁.Perm l₂) (a b : List SubagentResult) :
    aggregateUsage l₁ = aggregateUsage l₂ ∧
    aggregateUsage (a ++ b)
      = UsageStats.add (aggregateUsage a) (aggregateUsage b) :=
  ⟨aggregateUsage_perm h, aggregateUsage_append a b⟩

/-- Witness for C9 on two concrete results with distinct usage values,
swapped. -/
theorem usage_aggregation_comm_assoc_witness :
    aggregateUsage
        [{ runnerInit "a" "t" none with usage := ⟨1, 2, 3, 4, 5, 6⟩ },
         { runnerInit "b" "t" none with usage := ⟨10, 20, 30, 40, 50, 60⟩ }]
      = aggregateUsage
        [{ runnerInit "b" "t" none with usage := ⟨10, 20, 30, 40, 50, 60⟩ },
         { runnerInit "a" "t" none with usage := ⟨1, 2, 3, 4, 5, 6⟩ }] :=
  (usage_aggregation_comm_assoc
    (List.Perm.swap
      { runnerInit "b" "t" none with usage := ⟨10, 20, 30, 40, 50, 60⟩ }
      { runnerInit "a" "t" none with usage := ⟨1, 2, 3, 4, 5, 6⟩ } [])
    [] []).1

set_option maxRecDepth 100000 in
unseal Rat.add Rat.mul Rat.inv Rat.sub in
/-- **C9 counterexample (claim as originally stated).** The cost totals the
code computes are binary64 sums with per-addition rounding, and those are not
order-independent: over the binary64 values nearest to 0.1, 0.2 and 0.3, the
left fold of `total.cost += r.usage.cost` gives 0.6000000000000001 in one
order and 0.6 in the reverse order, although the two cost lists are
permutations of each other. -/
theorem cost_double_sum_order_dependent :
    [roundToDouble (1 / 10), roundToDouble (2 / 10),
        roundToDouble (3 / 10)].Perm
      [roundToDouble (3 / 10), roundToDouble (2 / 10),
        roundToDouble (1 / 10)] ∧
    aggregateCostDouble
        [roundToDouble (1 / 10), roundToDouble (2 / 10), roundToDouble (3 / 10)]
      ≠ aggregateCostDouble
        [roundToDouble (3 / 10), roundToDouble (2 / 10),
          roundToDouble (1 / 10)] := by
  decide

/-! ## Lemmas: error flags (for C10) -/

theorem successCount_lt_iff (rs : List SubagentResult) :
    successCount rs < rs.length ↔ ∃ r ∈ rs, r.exitCode ≠ 0 := by
  induction rs with
  | nil => simp [successCount]
  | cons r rs ih =>
      by_cases h : r.exitCode = 0
      · simp only [successCount, List.filter_cons, List.length_cons]
        rw [if_pos (by simp [h])]
        simp only [List.length_cons]
        constructor
        · intro hlt
          have hlt' : successCount rs < rs.length := by
            simp only [successCount]
            omega
          obtain ⟨x, hx, hne⟩ := ih.mp hlt'
          exact ⟨x, List.mem_cons_of_mem r hx, hne⟩
        · rintro ⟨x, hx, hne⟩
          rcases List.mem_cons.mp hx with he | hm
          · exact absurd (by rw [he]; exact h) hne
          · have := ih.mpr ⟨x, hm, hne⟩
            simp only [successCount] at this
            omega
      · have hle := List.length_filter_le
          (fun x : SubagentResult => x.exitCode == 0) rs
        simp only [successCount, List.filter_cons, List.length_cons]
        rw [if_neg (by simp [h])]
        constructor
        · intro _
          exact ⟨r, List.mem_cons_self r rs, h⟩
        · intro _
          omega

/-- **C10.** The single-mode and parallel-mode paths use different failure
predicates: the parallel fleet flag is set exactly when some task has a
non-zero exit code, ignoring stopReason entirely, while the single-mode flag
also fires on `stopReason` "error" or "aborted" — so a result with exit code
0 and stopReason "aborted" is an error in single mode but would not make a
fleet fail. -/
theorem single_vs_parallel_error :
    (∀ rs : List SubagentResult,
        parallelIsError rs = true ↔ ∃ r ∈ rs, r.exitCode ≠ 0) ∧
    (∀ r : SubagentResult,
        singleIsError r = true ↔
          (r.exitCode ≠ 0 ∨ r.stopReason = some "error" ∨
            r.stopReason = some "aborted")) ∧
    (∃ r : SubagentResult, r.exitCode = 0 ∧ singleIsError r = true ∧
        parallelIsError [r] = false) := by
  refine ⟨?_, ?_, ?_⟩
  · intro rs
    simp [parallelIsError, successCount_lt_iff]
  · intro r
    simp [singleIsError, or_assoc]
  · exact ⟨{ runnerInit "m" "t" none with stopReason := some "aborted" },
      by decide, by decide, by decide⟩

end Subagent
